import Mathlib

/-!
Verification development for the read-matching and counting engine of
2FAST2Q (src/2FAST2Q.py).  The Python source is shallowly embedded:
byte sequences become `List Nat` (one byte value per base, int8
subtraction modelled with explicit wrap-around modulo 256), Python sets
and dicts become lists and association lists with the source's update
semantics (dict assignment keeps position on overwrite, appends new
keys), Python `None` becomes `Option`, and Python integer slicing
(including negative indices) is modelled by `pySlice`.
-/

namespace FastQ

/-- Embedding of `seq2bin` (source line 308): converts a string to the
array of byte values of its characters (the source goes through a utf-8
bytearray; the inputs are ASCII base/quality characters, for which the
code point is the byte value). -/
def seq2bin (s : String) : List Nat :=
  s.data.map (fun c => c.toNat)

/-- Reference Hamming distance between two byte lists, counted over the
zipped overlap (equal-length lists in the specified use). -/
def hamming (a b : List Nat) : Nat :=
  (a.zip b).countP (fun p => decide (p.1 ≠ p.2))

/-- Loop of `binary_subtract` (source lines 316-328): walks the two
arrays in lockstep carrying the running mismatch counter `miss`;
whenever the int8 difference of the current pair is nonzero the counter
grows, and as soon as it exceeds `limit` the function answers 0 without
looking at the remaining positions.  The int8 subtraction of two byte
values is nonzero exactly when `(a + 256 - b) % 256 ≠ 0`. -/
def binarySubtractAux : List Nat → List Nat → Nat → Nat → Nat
  | a :: as, b :: bs, miss, limit =>
    let miss' := if (a + 256 - b) % 256 ≠ 0 then miss + 1 else miss
    if miss' > limit then 0 else binarySubtractAux as bs miss' limit
  | _, _, _, _ => 1

/-- Embedding of `binary_subtract` (source lines 316-328): 1 when the
two encoded sequences agree up to `limit` mismatches, 0 otherwise. -/
def binary_subtract (a b : List Nat) (limit : Nat) : Nat :=
  binarySubtractAux a b 0 limit

lemma int8_diff_ne (a b : Nat) (ha : a < 256) (hb : b < 256) :
    ((a + 256 - b) % 256 ≠ 0) ↔ a ≠ b := by
  constructor
  · intro h hab
    subst hab
    omega
  · intro hab
    rcases Nat.lt_or_ge a b with h | h
    · have h1 : a + 256 - b = 256 - (b - a) := by omega
      have h2 : a + 256 - b < 256 := by omega
      have h3 : 0 < a + 256 - b := by omega
      rw [Nat.mod_eq_of_lt h2]
      omega
    · have h1 : a + 256 - b = 256 + (a - b) := by omega
      rw [h1]
      rw [Nat.add_mod_left]
      have h2 : a - b < 256 := by omega
      rw [Nat.mod_eq_of_lt h2]
      omega

lemma hamming_cons (x y : Nat) (xs ys : List Nat) :
    hamming (x :: xs) (y :: ys) = (if x ≠ y then 1 else 0) + hamming xs ys := by
  simp only [hamming, List.zip_cons_cons, List.countP_cons]
  by_cases hxy : x = y
  · simp [hxy]
  · simp [hxy]
    omega

lemma binarySubtractAux_eq_one_iff (a : List Nat) :
    ∀ (b : List Nat) (m limit : Nat), a.length = b.length →
    (∀ x ∈ a, x < 256) → (∀ x ∈ b, x < 256) → m ≤ limit →
    (binarySubtractAux a b m limit = 1 ↔ m + hamming a b ≤ limit) := by
  induction a with
  | nil =>
    intro b m limit hlen _ _ hm
    cases b with
    | nil => simp [binarySubtractAux, hamming, hm]
    | cons y ys => simp at hlen
  | cons x xs ih =>
    intro b m limit hlen hba hbb hm
    cases b with
    | nil => simp at hlen
    | cons y ys =>
      have hx : x < 256 := hba x (by simp)
      have hy : y < 256 := hbb y (by simp)
      have hlen' : xs.length = ys.length := by simpa using hlen
      have ih' := fun m hmm => ih ys m limit hlen'
        (fun z hz => hba z (by simp [hz])) (fun z hz => hbb z (by simp [hz])) hmm
      rw [hamming_cons]
      simp only [binarySubtractAux]
      by_cases hne : (x + 256 - y) % 256 ≠ 0
      · have hxy : x ≠ y := (int8_diff_ne x y hx hy).mp hne
        rw [if_pos hne, if_pos hxy]
        by_cases hgt : m + 1 > limit
        · rw [if_pos hgt]
          omega
        · rw [if_neg hgt, ih' (m + 1) (by omega)]
          omega
      · have hxy : x = y := by
          by_contra hc
          exact hne ((int8_diff_ne x y hx hy).mpr hc)
        have hxy' : ¬ (x ≠ y) := by simp [hxy]
        rw [if_neg hne, if_neg hxy']
        have hgt : ¬ (m > limit) := by omega
        rw [if_neg hgt, ih' m hm]
        omega

lemma binarySubtractAux_early_exit (a : List Nat) :
    ∀ (b s t : List Nat) (m limit : Nat), a.length = b.length →
    (∀ x ∈ a, x < 256) → (∀ x ∈ b, x < 256) →
    m ≤ limit → limit < m + hamming a b →
    binarySubtractAux (a ++ s) (b ++ t) m limit = 0 := by
  induction a with
  | nil =>
    intro b s t m limit hlen _ _ hm hgt
    cases b with
    | nil => simp [hamming] at hgt; omega
    | cons y ys => simp at hlen
  | cons x xs ih =>
    intro b s t m limit hlen hba hbb hm hgt
    cases b with
    | nil => simp at hlen
    | cons y ys =>
      have hx : x < 256 := hba x (by simp)
      have hy : y < 256 := hbb y (by simp)
      have hlen' : xs.length = ys.length := by simpa using hlen
      rw [hamming_cons] at hgt
      simp only [List.cons_append]
      simp only [binarySubtractAux]
      by_cases hne : (x + 256 - y) % 256 ≠ 0
      · have hxy : x ≠ y := (int8_diff_ne x y hx hy).mp hne
        rw [if_pos hxy] at hgt
        rw [if_pos hne]
        by_cases hlim : m + 1 > limit
        · rw [if_pos hlim]
        · rw [if_neg hlim]
          exact ih ys s t (m + 1) limit hlen'
            (fun z hz => hba z (by simp [hz]))
            (fun z hz => hbb z (by simp [hz])) (by omega) (by omega)
      · have hxy : x = y := by
          by_contra hc
          exact hne ((int8_diff_ne x y hx hy).mpr hc)
        have hxy' : ¬ (x ≠ y) := by simp [hxy]
        rw [if_neg hxy'] at hgt
        rw [if_neg hne]
        have hlim : ¬ (m > limit) := by omega
        rw [if_neg hlim]
        exact ih ys s t m limit hlen'
          (fun z hz => hba z (by simp [hz]))
          (fun z hz => hbb z (by simp [hz])) hm (by omega)

/-- C3: for equal-length byte sequences `a` and `b` (byte values below
256, as produced by `seq2bin`) and any limit `L`, `binary_subtract`
returns 1 exactly when the Hamming distance of `a` and `b` is at most
`L`; and whenever the distance of the already-scanned prefix exceeds
`L` the result is 0 no matter what the remaining positions hold (the
scan short-circuits). -/
theorem binary_subtract_hamming (a b : List Nat) (L : Nat)
    (hlen : a.length = b.length)
    (ha : ∀ x ∈ a, x < 256) (hb : ∀ x ∈ b, x < 256) :
    (binary_subtract a b L = 1 ↔ hamming a b ≤ L) ∧
    (∀ s t : List Nat, L < hamming a b →
      binary_subtract (a ++ s) (b ++ t) L = 0) := by
  constructor
  · have h := binarySubtractAux_eq_one_iff a b 0 L hlen ha hb (Nat.zero_le L)
    simpa [binary_subtract] using h
  · intro s t hgt
    have h := binarySubtractAux_early_exit a b s t 0 L hlen ha hb
      (Nat.zero_le L) (by omega)
    simpa [binary_subtract] using h

/-- C3 witness: concrete check at `a = seq2bin "ACGT"`, `b = seq2bin
"ACGA"`, limit 1: distance 1 is within the limit, and with limit 0 an
extension past the mismatching prefix still yields 0. -/
theorem binary_subtract_hamming_witness :
    (binary_subtract (seq2bin "ACGT") (seq2bin "ACGA") 1 = 1 ↔
      hamming (seq2bin "ACGT") (seq2bin "ACGA") ≤ 1) ∧
    binary_subtract (seq2bin "ACGT" ++ [65]) (seq2bin "ACGA" ++ [66]) 0 = 0 := by
  have h := binary_subtract_hamming (seq2bin "ACGT") (seq2bin "ACGA") 1
    (by decide) (by decide) (by decide)
  refine ⟨h.1, ?_⟩
  have h0 := binary_subtract_hamming (seq2bin "ACGT") (seq2bin "ACGA") 0
    (by decide) (by decide) (by decide)
  exact h0.2 [65] [66] (by decide)

/-- Loop of `features_all_vs_all` (source lines 348-364): walks the
feature table carrying how many features matched so far (`found`) and
the key of the last matching one (`fg`); on a second match it answers
`none` immediately, and at the end it answers the recorded key exactly
when `found = 1`. -/
def favaAux : List (String × List Nat) → List Nat → Nat → Nat → Option String → Option String
  | [], _, _, found, fg => if found = 1 then fg else none
  | g :: rest, read, limit, found, fg =>
    if binary_subtract g.2 read limit = 1 then
      if found + 1 ≥ 2 then none
      else favaAux rest read limit (found + 1) (some g.1)
    else favaAux rest read limit found fg

/-- Embedding of `features_all_vs_all` (source lines 348-364): compares
the read against every feature and yields the single matching feature
key, or `none` when no feature or at least two features match. -/
def features_all_vs_all (binary_features : List (String × List Nat))
    (read : List Nat) (mismatch : Nat) : Option String :=
  favaAux binary_features read mismatch 0 none

/-- Number of features of the table whose comparison against the read
succeeds within the mismatch limit (the all-vs-all matching predicate
is `binary_subtract` itself). -/
def countMatches (binary_features : List (String × List Nat))
    (read : List Nat) (mismatch : Nat) : Nat :=
  (binary_features.filter (fun g => binary_subtract g.2 read mismatch = 1)).length

lemma favaAux_of_two_le (l : List (String × List Nat)) :
    ∀ (read : List Nat) (limit found : Nat) (fg : Option String),
    2 ≤ found + countMatches l read limit →
    favaAux l read limit found fg = none := by
  induction l with
  | nil =>
    intro read limit found fg h2
    simp [countMatches] at h2
    simp [favaAux]
    omega
  | cons g rest ih =>
    intro read limit found fg h2
    simp only [favaAux]
    by_cases hm : binary_subtract g.2 read limit = 1
    · rw [if_pos hm]
      by_cases hf : found + 1 ≥ 2
      · rw [if_pos hf]
      · rw [if_neg hf]
        apply ih
        simp only [countMatches, List.filter_cons, hm] at h2 ⊢
        simp at h2
        omega
    · rw [if_neg hm]
      apply ih
      simp only [countMatches, List.filter_cons] at h2 ⊢
      simp [hm] at h2
      omega

lemma favaAux_of_zero (l : List (String × List Nat)) :
    ∀ (read : List Nat) (limit found : Nat) (fg : Option String),
    countMatches l read limit = 0 →
    favaAux l read limit found fg = if found = 1 then fg else none := by
  induction l with
  | nil =>
    intro read limit found fg _
    simp [favaAux]
  | cons g rest ih =>
    intro read limit found fg h0
    simp only [countMatches, List.filter_cons] at h0
    by_cases hm : binary_subtract g.2 read limit = 1
    · simp [hm] at h0
    · simp only [hm] at h0
      simp only [favaAux, if_neg hm]
      apply ih
      simpa [countMatches, hm] using h0

lemma favaAux_of_one (l : List (String × List Nat)) :
    ∀ (read : List Nat) (limit : Nat) (fg : Option String),
    countMatches l read limit = 1 →
    (favaAux l read limit 0 fg).isSome := by
  induction l with
  | nil =>
    intro read limit fg h1
    simp [countMatches] at h1
  | cons g rest ih =>
    intro read limit fg h1
    simp only [countMatches, List.filter_cons] at h1
    by_cases hm : binary_subtract g.2 read limit = 1
    · simp only [favaAux, if_pos hm]
      have hf : ¬ (0 + 1 ≥ 2) := by omega
      rw [if_neg hf]
      have hrest : countMatches rest read limit = 0 := by
        simp [hm] at h1
        simpa [countMatches] using h1
      rw [favaAux_of_zero rest read limit (0 + 1) (some g.1) hrest]
      simp
    · simp only [favaAux, if_neg hm]
      apply ih
      simp [hm] at h1
      simpa [countMatches] using h1

/-- C2: the all-vs-all scan yields no match whenever two or more
features lie within the mismatch limit of the read (even when one of
them is strictly closer — the matching predicate ignores distance below
the limit), and it yields a feature key exactly when precisely one
feature matches within the limit. -/
theorem features_all_vs_all_ambiguity (binary_features : List (String × List Nat))
    (read : List Nat) (mismatch : Nat) :
    (2 ≤ countMatches binary_features read mismatch →
      features_all_vs_all binary_features read mismatch = none) ∧
    ((features_all_vs_all binary_features read mismatch).isSome ↔
      countMatches binary_features read mismatch = 1) := by
  constructor
  · intro h2
    exact favaAux_of_two_le binary_features read mismatch 0 none (by omega)
  · constructor
    · intro hs
      rcases hc : countMatches binary_features read mismatch with _ | n
      · rw [features_all_vs_all,
          favaAux_of_zero binary_features read mismatch 0 none hc] at hs
        simp at hs
      · rcases n with _ | n
        · rfl
        · rw [features_all_vs_all,
            favaAux_of_two_le binary_features read mismatch 0 none (by omega)] at hs
          simp at hs
    · intro h1
      exact favaAux_of_one binary_features read mismatch none h1

/-- C2 witness: with features `f1 = AAAA` (Hamming distance 0, strictly
closer) and `f2 = AAAT` (distance 1), both within limit 1 of the read
`AAAA`, the scan answers `none`; and with limit 0 only `f1` matches, so
the scan answers a key. -/
theorem features_all_vs_all_ambiguity_witness :
    features_all_vs_all
      [("f1", seq2bin "AAAA"), ("f2", seq2bin "AAAT")] (seq2bin "AAAA") 1 = none ∧
    (features_all_vs_all
      [("f1", seq2bin "AAAA"), ("f2", seq2bin "AAAT")] (seq2bin "AAAA") 0).isSome := by
  constructor
  · exact (features_all_vs_all_ambiguity
      [("f1", seq2bin "AAAA"), ("f2", seq2bin "AAAT")] (seq2bin "AAAA") 1).1
      (by decide)
  · exact (features_all_vs_all_ambiguity
      [("f1", seq2bin "AAAA"), ("f2", seq2bin "AAAT")] (seq2bin "AAAA") 0).2.mpr
      (by decide)

/-- Association-list lookup modelling Python dict lookup (first entry
with the key; the insert discipline keeps keys unique). -/
def plook (k : String) : List (String × String) → Option String
  | [] => none
  | p :: r => if p.1 = k then some p.2 else plook k r

/-- Association-list lookup for the feature-count table. -/
def plookN (k : String) : List (String × Nat) → Option Nat
  | [] => none
  | p :: r => if p.1 = k then some p.2 else plookN k r

/-- Python dict assignment `d[k] = v`: an existing key keeps its
position and gets the new value, a new key is appended. -/
def dictInsert (d : List (String × String)) (k v : String) : List (String × String) :=
  if (plook k d).isSome then d.map (fun p => if p.1 = k then (k, v) else p)
  else d ++ [(k, v)]

/-- Python dict merge `{**old, **new}` (source line 1102): every entry
of `new` is written over `old`, so on a key collision the entry of
`new` wins. -/
def dictMerge (old new : List (String × String)) : List (String × String) :=
  new.foldl (fun acc p => dictInsert acc p.1 p.2) old

/-- Python `set.add`. -/
def setAdd (l : List String) (s : String) : List String :=
  if s ∈ l then l else l ++ [s]

/-- Python `set.union` (source line 1101), keeping the left operand's
membership and adding the unseen members of the right one. -/
def setUnionL (a b : List String) : List String :=
  b.foldl setAdd a

/-- Increment of `features[f].counts` (the per-feature read counter):
the entry with key `f` is updated in place. -/
def featIncr (features : List (String × Nat)) (f : String) : List (String × Nat) :=
  features.map (fun p => if p.1 = f then (p.1, p.2 + 1) else p)

/-- Worker-local state threaded through one read of the stream
processor: the feature-count table, the per-category counters of
`fastq_parser`, and the match cache (`failed_reads`, `passed_reads`). -/
structure PState where
  features : List (String × Nat)
  perfect : Nat
  imperfect : Nat
  non_aligned : Nat
  quality_failed : Nat
  reads : Nat
  failed : List String
  passed : List (String × String)
  deriving Repr, DecidableEq

/-- Loop body of `mismatch_search_handler` (source lines 366-395) over
the escalating mismatch levels.  Per level: a `passed_reads` hit counts
the recorded feature and stops; a `failed_reads` hit bumps the
unmatched counter and moves to the next level; otherwise the all-vs-all
scan runs at this level (counting a unique match), and only when
`ram_clearance` holds is the outcome admitted to the cache — a failure
is then recorded and counted unmatched with an immediate stop, a
success is recorded and the loop continues. -/
def handlerLoop (seq : String) (binary_features : List (String × List Nat))
    (ram_clearance : Bool) : List Nat → PState → PState
  | [], st => st
  | miss :: rest, st =>
    match plook seq st.passed with
    | some f =>
      { st with features := featIncr st.features f, imperfect := st.imperfect + 1 }
    | none =>
      if seq ∈ st.failed then
        handlerLoop seq binary_features ram_clearance rest
          { st with non_aligned := st.non_aligned + 1 }
      else
        let feature := features_all_vs_all binary_features (seq2bin seq) miss
        let st1 := match feature with
          | some f =>
            { st with features := featIncr st.features f, imperfect := st.imperfect + 1 }
          | none => st
        if ram_clearance then
          match feature with
          | none =>
            { st1 with failed := setAdd st1.failed seq,
                       non_aligned := st1.non_aligned + 1 }
          | some f =>
            handlerLoop seq binary_features ram_clearance rest
              { st1 with passed := dictInsert st1.passed seq f }
        else
          handlerLoop seq binary_features ram_clearance rest st1

/-- Embedding of `mismatch_search_handler` (source lines 366-395). -/
def mismatch_search_handler (mismatch : List Nat) (seq : String)
    (binary_features : List (String × List Nat)) (ram_clearance : Bool)
    (st : PState) : PState :=
  handlerLoop seq binary_features ram_clearance mismatch st

/-- Mismatch level list `[n+1 for n in range(miss)]` (source line 215). -/
def missList (miss : Nat) : List Nat :=
  List.range' 1 miss

/-- All-zero worker state over a given feature table and cache. -/
def initState (features : List (String × Nat)) (failed : List String)
    (passed : List (String × String)) : PState :=
  ⟨features, 0, 0, 0, 0, 0, failed, passed⟩

/-- C1: evaluation at the failing input.  The read `TTTT` misses the
only feature `AAAA` at every mismatch level; with the RAM Governor
denying growth (`ram_clearance = false`) the handler leaves the
unmatched counter at 0 — the read is counted nowhere — while the same
call with growth permitted counts it as unmatched.  The claim (and the
spec) require the unmatched counter to be incremented either way. -/
theorem c1_ram_pressure_drops_unmatched_count :
    (mismatch_search_handler (missList 1) "TTTT" [("AAAA", seq2bin "AAAA")] false
      (initState [("AAAA", 0)] [] [])).non_aligned = 0 ∧
    (mismatch_search_handler (missList 1) "TTTT" [("AAAA", seq2bin "AAAA")] true
      (initState [("AAAA", 0)] [] [])).non_aligned = 1 := by
  constructor
  · rfl
  · rfl

/-- C7: evaluation at the failing input.  With mismatch budget 2 the
escalation list is `[1, 2]`; a read whose sequence already lies in
`failed_reads` takes the `failed` branch once per level, so the
unmatched counter grows by 2 for this single read (the claim and the
per-read counter semantics say once); no scan outcome is recorded and
the caches and feature counts stay unchanged. -/
theorem c7_failed_hit_counts_once_per_level :
    (mismatch_search_handler (missList 2) "TTTT" [("AAAA", seq2bin "AAAA")] true
      (initState [("AAAA", 0)] ["TTTT"] [])).non_aligned = 2 ∧
    (mismatch_search_handler (missList 2) "TTTT" [("AAAA", seq2bin "AAAA")] true
      (initState [("AAAA", 0)] ["TTTT"] [])).features = [("AAAA", 0)] ∧
    (mismatch_search_handler (missList 2) "TTTT" [("AAAA", seq2bin "AAAA")] true
      (initState [("AAAA", 0)] ["TTTT"] [])).failed = ["TTTT"] ∧
    (mismatch_search_handler (missList 2) "TTTT" [("AAAA", seq2bin "AAAA")] true
      (initState [("AAAA", 0)] ["TTTT"] [])).passed = [] := by
  refine ⟨rfl, rfl, rfl, rfl⟩

lemma plook_map_update (d : List (String × String)) (k v s : String) :
    plook s (d.map (fun p => if p.1 = k then (k, v) else p)) =
      if s = k then (plook k d).map (fun _ => v) else plook s d := by
  induction d with
  | nil => by_cases hsk : s = k <;> simp [plook, hsk]
  | cons p r ih =>
    simp only [List.map_cons]
    by_cases hpk : p.1 = k
    · rw [if_pos hpk]
      by_cases hsk : s = k
      · subst hsk
        simp [plook, hpk]
      · have h1 : ¬ (k = s) := fun h => hsk h.symm
        simp [plook, h1, hpk, hsk, ih]
    · rw [if_neg hpk]
      by_cases hsk : s = k
      · subst hsk
        simp [plook, hpk, ih]
      · simp [plook, hsk, ih]

lemma plook_append (d e : List (String × String)) (s : String) :
    plook s (d ++ e) =
      match plook s d with
      | some w => some w
      | none => plook s e := by
  induction d with
  | nil => simp [plook]
  | cons p r ih =>
    by_cases hps : p.1 = s <;> simp [plook, hps, ih]

lemma plook_dictInsert (d : List (String × String)) (k v s : String) :
    plook s (dictInsert d k v) = if s = k then some v else plook s d := by
  unfold dictInsert
  by_cases hk : (plook k d).isSome
  · rw [if_pos hk, plook_map_update]
    by_cases hsk : s = k
    · rw [if_pos hsk, if_pos hsk]
      rcases ho : plook k d with _ | w
      · rw [ho] at hk
        simp at hk
      · simp
    · rw [if_neg hsk, if_neg hsk]
  · rw [if_neg hk, plook_append]
    rcases ho : plook s d with _ | w
    · simp only [ho]
      by_cases hsk : s = k
      · subst hsk
        simp [plook]
      · have h1 : ¬ (k = s) := fun h => hsk h.symm
        simp [plook, h1, hsk]
    · simp only [ho]
      by_cases hsk : s = k
      · subst hsk
        rw [ho] at hk
        simp at hk
      · rw [if_neg hsk]

lemma plookN_featIncr_self (l : List (String × Nat)) (f : String) :
    plookN f (featIncr l f) = (plookN f l).map (fun c => c + 1) := by
  induction l with
  | nil => simp [featIncr, plookN]
  | cons p r ih =>
    simp only [featIncr, List.map_cons]
    by_cases hpf : p.1 = f
    · simp [plookN, hpf]
    · simp only [if_neg hpf, plookN, if_neg hpf]
      simpa [featIncr] using ih

lemma binarySubtractAux_mono (a : List Nat) :
    ∀ (b : List Nat) (m L LL : Nat), L ≤ LL →
    binarySubtractAux a b m L = 1 → binarySubtractAux a b m LL = 1 := by
  induction a with
  | nil =>
    intro b m L LL _ _
    cases b <;> rfl
  | cons x xs ih =>
    intro b m L LL hLL h
    cases b with
    | nil => rfl
    | cons y ys =>
      simp only [binarySubtractAux] at h ⊢
      by_cases hne : (x + 256 - y) % 256 ≠ 0
      · rw [if_pos hne] at h ⊢
        by_cases hgt : m + 1 > L
        · rw [if_pos hgt] at h
          exact absurd h (by decide)
        · rw [if_neg hgt] at h
          rw [if_neg (by omega : ¬ (m + 1 > LL))]
          exact ih ys (m + 1) L LL hLL h
      · rw [if_neg hne] at h ⊢
        by_cases hgt : m > L
        · rw [if_pos hgt] at h
          exact absurd h (by decide)
        · rw [if_neg hgt] at h
          rw [if_neg (by omega : ¬ (m > LL))]
          exact ih ys m L LL hLL h

lemma binary_subtract_mono (a b : List Nat) (L LL : Nat) (hLL : L ≤ LL)
    (h : binary_subtract a b L = 1) : binary_subtract a b LL = 1 :=
  binarySubtractAux_mono a b 0 L LL hLL h

lemma favaAux_some_match (l : List (String × List Nat)) :
    ∀ (read : List Nat) (limit found : Nat) (fg : Option String) (g : String),
    favaAux l read limit found fg = some g →
    (∃ p ∈ l, p.1 = g ∧ binary_subtract p.2 read limit = 1) ∨ fg = some g := by
  induction l with
  | nil =>
    intro read limit found fg g h
    simp only [favaAux] at h
    by_cases hfound : found = 1
    · rw [if_pos hfound] at h
      exact Or.inr h
    · rw [if_neg hfound] at h
      exact absurd h (by simp)
  | cons p rest ih =>
    intro read limit found fg g h
    simp only [favaAux] at h
    by_cases hm : binary_subtract p.2 read limit = 1
    · rw [if_pos hm] at h
      by_cases h2 : found + 1 ≥ 2
      · rw [if_pos h2] at h
        exact absurd h (by simp)
      · rw [if_neg h2] at h
        rcases ih read limit (found + 1) (some p.1) g h with ⟨q, hq, hqg, hqm⟩ | hfg
        · exact Or.inl ⟨q, by simp [hq], hqg, hqm⟩
        · exact Or.inl ⟨p, by simp, Option.some.inj hfg, hm⟩
    · rw [if_neg hm] at h
      rcases ih read limit found fg g h with ⟨q, hq, hqg, hqm⟩ | hfg
      · exact Or.inl ⟨q, by simp [hq], hqg, hqm⟩
      · exact Or.inr hfg

lemma features_all_vs_all_some_match (bf : List (String × List Nat))
    (read : List Nat) (lim : Nat) (g : String)
    (h : features_all_vs_all bf read lim = some g) :
    ∃ p ∈ bf, p.1 = g ∧ binary_subtract p.2 read lim = 1 := by
  rcases favaAux_some_match bf read lim 0 none g h with hex | hfg
  · exact hex
  · exact absurd hfg (by simp)

/-- A widened mismatch budget keeps the original unique match within
the limit, so if the scan at a level at least as large is still unique,
it names the same feature. -/
lemma scan_unique_same (bf : List (String × List Nat)) (read : List Nat)
    (f g : String) (lvl lvl2 : Nat) (hll : lvl ≤ lvl2)
    (hf : features_all_vs_all bf read lvl = some f)
    (hg : features_all_vs_all bf read lvl2 = some g) : g = f := by
  rcases features_all_vs_all_some_match bf read lvl f hf with ⟨p, hp, hpf, hpm⟩
  rcases features_all_vs_all_some_match bf read lvl2 g hg with ⟨q, hq, hqg, hqm⟩
  have hcount : countMatches bf read lvl2 = 1 := by
    rcases hcnt : countMatches bf read lvl2 with _ | n
    · have h0 := favaAux_of_zero bf read lvl2 0 none hcnt
      rw [features_all_vs_all] at hg
      rw [h0] at hg
      exact absurd hg (by simp)
    · rcases n with _ | n
      · rfl
      · have h2 := favaAux_of_two_le bf read lvl2 0 none (by omega)
        rw [features_all_vs_all] at hg
        rw [h2] at hg
        exact absurd hg (by simp)
  have hpm2 : binary_subtract p.2 read lvl2 = 1 :=
    binary_subtract_mono p.2 read lvl lvl2 hll hpm
  have hpmem : p ∈ bf.filter (fun r => binary_subtract r.2 read lvl2 = 1) :=
    List.mem_filter.mpr ⟨hp, by simp [hpm2]⟩
  have hqmem : q ∈ bf.filter (fun r => binary_subtract r.2 read lvl2 = 1) :=
    List.mem_filter.mpr ⟨hq, by simp [hqm]⟩
  rw [countMatches] at hcount
  rcases List.length_eq_one.mp hcount with ⟨x, hx⟩
  rw [hx] at hpmem hqmem
  simp at hpmem hqmem
  rw [← hqg, ← hpf, hpmem, hqmem]

lemma handlerLoop_ram_false_counts (seq : String)
    (bf : List (String × List Nat)) (f : String) (L : List Nat) :
    ∀ st : PState, plook seq st.passed = none → seq ∉ st.failed →
    (∀ m ∈ L, ∀ g, features_all_vs_all bf (seq2bin seq) m = some g → g = f) →
    (handlerLoop seq bf false L st).imperfect =
      st.imperfect +
        L.countP (fun m => (features_all_vs_all bf (seq2bin seq) m).isSome) ∧
    plookN f (handlerLoop seq bf false L st).features =
      (plookN f st.features).map
        (fun c => c +
          L.countP (fun m => (features_all_vs_all bf (seq2bin seq) m).isSome)) := by
  induction L with
  | nil =>
    intro st _ _ _
    constructor
    · simp [handlerLoop]
    · rcases hpl : plookN f st.features with _ | c <;> simp [handlerLoop, hpl]
  | cons m rest ih =>
    intro st hp hf hsame
    simp only [handlerLoop, hp]
    rw [if_neg hf]
    cases hscan : features_all_vs_all bf (seq2bin seq) m with
    | none =>
      simp only [hscan, Bool.false_eq_true, if_false]
      have hr := ih st hp hf (fun mm hmm => hsame mm (by simp [hmm]))
      constructor
      · rw [hr.1]
        simp [List.countP_cons, hscan]
      · rw [hr.2]
        simp [List.countP_cons, hscan]
    | some g =>
      have hgf : g = f := hsame m (by simp) g hscan
      subst hgf
      simp only [hscan, Bool.false_eq_true, if_false]
      have hr := ih { st with features := featIncr st.features g,
                              imperfect := st.imperfect + 1 } hp hf
        (fun mm hmm => hsame mm (by simp [hmm]))
      constructor
      · rw [hr.1]
        simp [List.countP_cons, hscan]
        omega
      · rw [hr.2]
        show (plookN g (featIncr st.features g)).map _ = _
        rw [plookN_featIncr_self]
        rcases plookN g st.features with _ | c
        · simp
        · simp [List.countP_cons, hscan]
          omega

/-- C9 amended: for a read absent from both caches whose scan at the
first escalation level finds the unique feature `f` (escalation levels
only widen the budget), the handler increments the mismatch-matched
counter and the count of `f` exactly twice when the RAM Governor
permits growth and more than one level is configured (once by the
scan, once by the passed-cache hit at the next level); and when growth
is disallowed, both are incremented once per escalation level at which
the all-vs-all scan still yields a unique match — necessarily `f`
itself — while a level whose widened budget makes the match ambiguous
(or empty) contributes nothing. -/
theorem c9_escalation_double_count (bf : List (String × List Nat))
    (seq f : String) (c lvl : Nat) (rest : List Nat) (st : PState)
    (hp : plook seq st.passed = none) (hf : seq ∉ st.failed)
    (hscan : features_all_vs_all bf (seq2bin seq) lvl = some f)
    (hc : plookN f st.features = some c)
    (hmono : ∀ m ∈ rest, lvl ≤ m) :
    (rest ≠ [] →
      (mismatch_search_handler (lvl :: rest) seq bf true st).imperfect =
        st.imperfect + 2 ∧
      plookN f (mismatch_search_handler (lvl :: rest) seq bf true st).features =
        some (c + 2)) ∧
    ((mismatch_search_handler (lvl :: rest) seq bf false st).imperfect =
      st.imperfect +
        ((lvl :: rest).countP
          (fun m => (features_all_vs_all bf (seq2bin seq) m).isSome)) ∧
     plookN f (mismatch_search_handler (lvl :: rest) seq bf false st).features =
      some (c +
        ((lvl :: rest).countP
          (fun m => (features_all_vs_all bf (seq2bin seq) m).isSome)))) := by
  constructor
  · intro hrest
    rcases rest with _ | ⟨r, rs⟩
    · exact absurd rfl hrest
    · have hstep : mismatch_search_handler (lvl :: r :: rs) seq bf true st =
          handlerLoop seq bf true (r :: rs)
            { st with
              features := featIncr st.features f,
              imperfect := st.imperfect + 1,
              passed := dictInsert st.passed seq f } := by
        simp only [mismatch_search_handler, handlerLoop, hp]
        rw [if_neg hf]
        simp only [hscan, if_true]
      have hhit : plook seq (dictInsert st.passed seq f) = some f := by
        rw [plook_dictInsert]
        simp
      rw [hstep]
      simp only [handlerLoop, hhit]
      constructor
      · trivial
      · show plookN f (featIncr (featIncr st.features f) f) = some (c + 2)
        rw [plookN_featIncr_self, plookN_featIncr_self, hc]
        rfl
  · have hsame : ∀ m ∈ (lvl :: rest), ∀ g,
        features_all_vs_all bf (seq2bin seq) m = some g → g = f := by
      intro m hm g hg
      rcases List.mem_cons.mp hm with hm' | hm'
      · rw [hm'] at hg
        exact Option.some.inj (hscan.symm.trans hg).symm
      · exact scan_unique_same bf (seq2bin seq) f g lvl m (hmono m hm') hscan hg
    have h := handlerLoop_ram_false_counts seq bf f (lvl :: rest) st hp hf hsame
    refine ⟨h.1, ?_⟩
    have h2 := h.2
    rw [hc] at h2
    exact h2

/-- C9 counterexample: features `AAAAA` (distance 2 from the read) and
`AATTT` (distance 1), read `AAATT`, mismatch budget 2, RAM growth
disallowed.  Level 1 finds the unique match `AATTT`, but level 2 sees
both features within the widened budget, so the ambiguity rule yields
no match and nothing is counted at that level: the mismatch-matched
counter ends at 1, not at one increment per escalation level (2) as the
claim states for the growth-disallowed case. -/
theorem c9_counterexample :
    (mismatch_search_handler (missList 2) "AAATT"
      [("AAAAA", seq2bin "AAAAA"), ("AATTT", seq2bin "AATTT")] false
      (initState [("AAAAA", 0), ("AATTT", 0)] [] [])).imperfect = 1 ∧
    ¬ (mismatch_search_handler (missList 2) "AAATT"
      [("AAAAA", seq2bin "AAAAA"), ("AATTT", seq2bin "AATTT")] false
      (initState [("AAAAA", 0), ("AATTT", 0)] [] [])).imperfect = 2 := by
  constructor
  · rfl
  · intro hcontra
    exact absurd hcontra (by decide)

/-- C9 witness: the amended theorem applied at the read `AAAT` against
the single feature `AAAA` with budget `[1, 2]`: with growth permitted
both the mismatch-matched counter and the feature count gain exactly
2; with growth disallowed the scan matches uniquely at both levels, so
both gain 2 as well. -/
theorem c9_escalation_double_count_witness :
    (mismatch_search_handler (missList 2) "AAAT" [("AAAA", seq2bin "AAAA")] true
      (initState [("AAAA", 0)] [] [])).imperfect = 0 + 2 ∧
    plookN "AAAA" (mismatch_search_handler (missList 2) "AAAT"
      [("AAAA", seq2bin "AAAA")] true (initState [("AAAA", 0)] [] [])).features =
      some (0 + 2) ∧
    (mismatch_search_handler (missList 2) "AAAT" [("AAAA", seq2bin "AAAA")] false
      (initState [("AAAA", 0)] [] [])).imperfect = 0 + 2 ∧
    plookN "AAAA" (mismatch_search_handler (missList 2) "AAAT"
      [("AAAA", seq2bin "AAAA")] false (initState [("AAAA", 0)] [] [])).features =
      some (0 + 2) := by
  have h := c9_escalation_double_count [("AAAA", seq2bin "AAAA")] "AAAT" "AAAA"
    0 1 [2] (initState [("AAAA", 0)] [] [])
    (by decide) (by decide) (by decide) (by decide) (by decide)
  have ht := h.1 (by decide)
  exact ⟨ht.1, ht.2, h.2.1, h.2.2⟩

/-- Embedding of `hash_reads_parsing` (source lines 1094-1104): folds
every worker's cache delta into the shared cache, `failed` by
`set.union` and `passed` by the dict merge `{**passed_reads, **passed}`. -/
def hash_reads_parsing :
    List (List String × List (String × String)) → List String →
    List (String × String) → List String × List (String × String)
  | [], failed, passed => (failed, passed)
  | d :: rest, failed, passed =>
    hash_reads_parsing rest (setUnionL failed d.1) (dictMerge passed d.2)

lemma mem_setAdd (l : List String) (t s : String) :
    s ∈ setAdd l t ↔ s ∈ l ∨ s = t := by
  unfold setAdd
  by_cases h : t ∈ l
  · rw [if_pos h]
    constructor
    · exact Or.inl
    · rintro (hs | hs)
      · exact hs
      · exact hs ▸ h
  · rw [if_neg h]
    simp

lemma mem_setUnionL (b : List String) :
    ∀ (a : List String) (s : String), s ∈ setUnionL a b ↔ s ∈ a ∨ s ∈ b := by
  induction b with
  | nil => simp [setUnionL]
  | cons t r ih =>
    intro a s
    show s ∈ List.foldl setAdd a (t :: r) ↔ _
    rw [List.foldl_cons]
    have : List.foldl setAdd (setAdd a t) r = setUnionL (setAdd a t) r := rfl
    rw [this, ih (setAdd a t) s, mem_setAdd]
    simp only [List.mem_cons]
    tauto

lemma plook_eq_none_iff (k : String) (l : List (String × String)) :
    plook k l = none ↔ ∀ q ∈ l, q.1 ≠ k := by
  induction l with
  | nil => simp [plook]
  | cons p r ih =>
    by_cases hpk : p.1 = k
    · simp [plook, hpk]
    · simp [plook, hpk, ih]

lemma plook_dictMerge_of_absent (new : List (String × String)) :
    ∀ (old : List (String × String)) (k : String), (∀ q ∈ new, q.1 ≠ k) →
    plook k (dictMerge old new) = plook k old := by
  induction new with
  | nil =>
    intro old k _
    rfl
  | cons a r ih =>
    intro old k hq
    show plook k (dictMerge (dictInsert old a.1 a.2) r) = _
    rw [ih (dictInsert old a.1 a.2) k (fun q hqr => hq q (by simp [hqr]))]
    rw [plook_dictInsert]
    have hka : ¬ (k = a.1) := fun h => hq a (by simp) h.symm
    rw [if_neg hka]

lemma plook_dictMerge_of_mem (new : List (String × String)) :
    ∀ (old : List (String × String)) (k v : String),
    (new.map Prod.fst).Nodup → plook k new = some v →
    plook k (dictMerge old new) = some v := by
  induction new with
  | nil =>
    intro old k v _ hv
    simp [plook] at hv
  | cons a r ih =>
    intro old k v hnd hv
    show plook k (dictMerge (dictInsert old a.1 a.2) r) = some v
    by_cases hak : a.1 = k
    · have hva : v = a.2 := by
        simp [plook, hak] at hv
        exact hv.symm
      have hkr : ∀ q ∈ r, q.1 ≠ k := by
        intro q hqr hqk
        simp only [List.map_cons, List.nodup_cons] at hnd
        exact hnd.1 (hak ▸ hqk ▸ (List.mem_map_of_mem Prod.fst hqr))
      rw [plook_dictMerge_of_absent r (dictInsert old a.1 a.2) k hkr]
      rw [plook_dictInsert, if_pos hak.symm, hva]
    · have hv' : plook k r = some v := by
        simpa [plook, hak] using hv
      have hnd' : (r.map Prod.fst).Nodup := by
        simp only [List.map_cons, List.nodup_cons] at hnd
        exact hnd.2
      exact ih (dictInsert old a.1 a.2) k v hnd' hv'

lemma mem_hash_failed (deltas : List (List String × List (String × String))) :
    ∀ (f : List String) (p : List (String × String)) (s : String),
    s ∈ (hash_reads_parsing deltas f p).1 ↔ s ∈ f ∨ ∃ d ∈ deltas, s ∈ d.1 := by
  induction deltas with
  | nil => simp [hash_reads_parsing]
  | cons d rest ih =>
    intro f p s
    show s ∈ (hash_reads_parsing rest (setUnionL f d.1) (dictMerge p d.2)).1 ↔ _
    rw [ih (setUnionL f d.1) (dictMerge p d.2) s, mem_setUnionL]
    simp only [List.mem_cons]
    constructor
    · rintro ((hs | hs) | ⟨e, he, hse⟩)
      · exact Or.inl hs
      · exact Or.inr ⟨d, Or.inl rfl, hs⟩
      · exact Or.inr ⟨e, Or.inr he, hse⟩
    · rintro (hs | ⟨e, (he | he), hse⟩)
      · exact Or.inl (Or.inl hs)
      · exact Or.inl (Or.inr (he ▸ hse))
      · exact Or.inr ⟨e, he, hse⟩

/-- C5 counterexample: the shared passed cache maps `A` to feature
`f1`; a worker delta maps `A` to `f2`.  After the batch merge the
shared cache maps `A` to `f2`: the existing entry is overwritten (the
delta wins), not kept as the claim's first-writer-wins rule states. -/
theorem c5_counterexample :
    plook "A" (hash_reads_parsing [([], [("A", "f2")])] [] [("A", "f1")]).2 =
      some "f2" ∧
    ¬ plook "A" (hash_reads_parsing [([], [("A", "f2")])] [] [("A", "f1")]).2 =
      some "f1" := by
  constructor
  · rfl
  · intro h
    exact absurd h (by decide)

/-- C5 amended: after a batch merge the shared failed cache is the set
union of the old cache and every worker delta; the shared passed cache
is the dict merge in which a delta entry overwrites an existing entry
on key collision (the incoming delta wins), and an entry whose key no
delta mentions is preserved unchanged. -/
theorem c5_merge_semantics (f : List String) (p : List (String × String))
    (deltas : List (List String × List (String × String)))
    (d : List String × List (String × String)) :
    (∀ s, s ∈ (hash_reads_parsing deltas f p).1 ↔ s ∈ f ∨ ∃ e ∈ deltas, s ∈ e.1) ∧
    (∀ k v, (d.2.map Prod.fst).Nodup → plook k d.2 = some v →
      plook k (hash_reads_parsing [d] f p).2 = some v) ∧
    (∀ k, plook k d.2 = none →
      plook k (hash_reads_parsing [d] f p).2 = plook k p) := by
  refine ⟨fun s => mem_hash_failed deltas f p s, ?_, ?_⟩
  · intro k v hnd hv
    show plook k (hash_reads_parsing [] (setUnionL f d.1) (dictMerge p d.2)).2 = some v
    exact plook_dictMerge_of_mem d.2 p k v hnd hv
  · intro k hv
    show plook k (hash_reads_parsing [] (setUnionL f d.1) (dictMerge p d.2)).2 = plook k p
    exact plook_dictMerge_of_absent d.2 p k ((plook_eq_none_iff k d.2).mp hv)

/-- C5 witness: concrete batch with two deltas for the failed union and
one colliding plus one fresh key for the passed merge. -/
theorem c5_merge_semantics_witness :
    ("x" ∈ (hash_reads_parsing [(["x"], []), (["y"], [])] ["z"] []).1 ↔
      "x" ∈ ["z"] ∨ ∃ e ∈ [(["x"], ([] : List (String × String))), (["y"], [])], "x" ∈ e.1) ∧
    plook "A" (hash_reads_parsing [([], [("A", "f2")])] [] [("A", "f1"), ("B", "g")]).2 =
      some "f2" ∧
    plook "B" (hash_reads_parsing [([], [("A", "f2")])] [] [("A", "f1"), ("B", "g")]).2 =
      plook "B" [("A", "f1"), ("B", "g")] := by
  refine ⟨(c5_merge_semantics ["z"] [] [(["x"], []), (["y"], [])] ([], [])).1 "x",
    (c5_merge_semantics [] [("A", "f1"), ("B", "g")] [([], [("A", "f2")])]
      ([], [("A", "f2")])).2.1 "A" "f2" (by decide) (by decide),
    (c5_merge_semantics [] [("A", "f1"), ("B", "g")] [([], [("A", "f2")])]
      ([], [("A", "f2")])).2.2 "B" (by decide)⟩

lemma plook_mem (l : List (String × String)) (k v : String)
    (h : plook k l = some v) : (k, v) ∈ l := by
  induction l with
  | nil => simp [plook] at h
  | cons p r ih =>
    by_cases hpk : p.1 = k
    · simp only [plook, if_pos hpk] at h
      have hv : p.2 = v := Option.some.inj h
      have hpv : (k, v) = p := by rw [← hpk, ← hv]
      rw [← hpv]
      simp
    · simp only [plook, if_neg hpk] at h
      simp [ih h]

lemma mem_dictInsert (d : List (String × String)) (k v : String)
    (q : String × String) (h : q ∈ dictInsert d k v) : q ∈ d ∨ q = (k, v) := by
  unfold dictInsert at h
  by_cases hk : (plook k d).isSome
  · rw [if_pos hk] at h
    rcases List.mem_map.mp h with ⟨p, hp, hq⟩
    by_cases hpk : p.1 = k
    · rw [if_pos hpk] at hq
      exact Or.inr hq.symm
    · rw [if_neg hpk] at hq
      exact Or.inl (hq ▸ hp)
  · rw [if_neg hk] at h
    rcases List.mem_append.mp h with hq | hq
    · exact Or.inl hq
    · simp at hq
      exact Or.inr (by simp [hq])

lemma mem_dictMerge (new : List (String × String)) :
    ∀ (old : List (String × String)) (q : String × String),
    q ∈ dictMerge old new → q ∈ old ∨ q ∈ new := by
  induction new with
  | nil =>
    intro old q h
    exact Or.inl h
  | cons a r ih =>
    intro old q h
    rcases ih (dictInsert old a.1 a.2) q h with hq | hq
    · rcases mem_dictInsert old a.1 a.2 q hq with hq' | hq'
      · exact Or.inl hq'
      · exact Or.inr (by simp [hq'])
    · exact Or.inr (by simp [hq])

/-- Coherence of a match cache with the first-level scan: every member
of `failed` is a sequence the all-vs-all scan rejects at the first
escalation level, and every entry of `passed` records exactly the
feature that scan finds.  Worker admissions only ever happen at the
first level (a first-level success is re-served from `passed` and a
first-level failure stops the loop), so every cache arising in a run is
coherent, and coherence is what the claim's disjointness amounts to. -/
def CoherentC (bf : List (String × List Nat)) (lvl : Nat)
    (failed : List String) (passed : List (String × String)) : Prop :=
  (∀ s ∈ failed, features_all_vs_all bf (seq2bin s) lvl = none) ∧
  (∀ q ∈ passed, features_all_vs_all bf (seq2bin q.1) lvl = some q.2)

lemma coherent_disjoint (bf : List (String × List Nat)) (lvl : Nat)
    (failed : List String) (passed : List (String × String))
    (hco : CoherentC bf lvl failed passed) (s v : String)
    (hs : s ∈ failed) (hv : plook s passed = some v) : False := by
  have h1 := hco.1 s hs
  have h2 := hco.2 (s, v) (plook_mem passed s v hv)
  rw [h1] at h2
  exact Option.noConfusion h2

lemma handlerLoop_caches_of_hit (seq : String) (bf : List (String × List Nat))
    (ram : Bool) (L : List Nat) :
    ∀ (st : PState) (f : String), plook seq st.passed = some f →
    (handlerLoop seq bf ram L st).failed = st.failed ∧
    (handlerLoop seq bf ram L st).passed = st.passed := by
  cases L with
  | nil =>
    intro st f _
    exact ⟨rfl, rfl⟩
  | cons m rest =>
    intro st f hf
    refine ⟨?_, ?_⟩ <;> simp [handlerLoop, hf]

lemma handlerLoop_caches_of_failed (seq : String) (bf : List (String × List Nat))
    (ram : Bool) (L : List Nat) :
    ∀ st : PState, plook seq st.passed = none → seq ∈ st.failed →
    (handlerLoop seq bf ram L st).failed = st.failed ∧
    (handlerLoop seq bf ram L st).passed = st.passed := by
  induction L with
  | nil =>
    intro st _ _
    exact ⟨rfl, rfl⟩
  | cons m rest ih =>
    intro st hp hf
    simp only [handlerLoop, hp]
    rw [if_pos hf]
    exact ih { st with non_aligned := st.non_aligned + 1 } hp hf

lemma handlerLoop_caches_of_ram_false (seq : String) (bf : List (String × List Nat))
    (L : List Nat) :
    ∀ st : PState,
    (handlerLoop seq bf false L st).failed = st.failed ∧
    (handlerLoop seq bf false L st).passed = st.passed := by
  induction L with
  | nil =>
    intro st
    exact ⟨rfl, rfl⟩
  | cons m rest ih =>
    intro st
    cases hp : plook seq st.passed with
    | some f =>
      refine ⟨?_, ?_⟩ <;> simp [handlerLoop, hp]
    | none =>
      simp only [handlerLoop, hp]
      by_cases hf : seq ∈ st.failed
      · rw [if_pos hf]
        exact ih { st with non_aligned := st.non_aligned + 1 }
      · rw [if_neg hf]
        cases hscan : features_all_vs_all bf (seq2bin seq) m with
        | some g =>
          simp only [hscan, Bool.false_eq_true, if_false]
          exact ih { st with features := featIncr st.features g,
                             imperfect := st.imperfect + 1 }
        | none =>
          simp only [hscan, Bool.false_eq_true, if_false]
          exact ih st

/-- The caches produced by one handler call: either both caches are
unchanged, or (growth permitted, sequence fresh) the first-level scan
outcome is admitted — a failure into `failed`, a unique match into
`passed`. -/
lemma handler_caches (bf : List (String × List Nat)) (lvl : Nat)
    (rest : List Nat) (seq : String) (ram : Bool) (st : PState) :
    ((mismatch_search_handler (lvl :: rest) seq bf ram st).failed = st.failed ∧
     (mismatch_search_handler (lvl :: rest) seq bf ram st).passed = st.passed) ∨
    (plook seq st.passed = none ∧ seq ∉ st.failed ∧
     features_all_vs_all bf (seq2bin seq) lvl = none ∧
     (mismatch_search_handler (lvl :: rest) seq bf ram st).failed =
       setAdd st.failed seq ∧
     (mismatch_search_handler (lvl :: rest) seq bf ram st).passed = st.passed) ∨
    (plook seq st.passed = none ∧ seq ∉ st.failed ∧
     ∃ f, features_all_vs_all bf (seq2bin seq) lvl = some f ∧
       (mismatch_search_handler (lvl :: rest) seq bf ram st).failed = st.failed ∧
       (mismatch_search_handler (lvl :: rest) seq bf ram st).passed =
         dictInsert st.passed seq f) := by
  cases hp : plook seq st.passed with
  | some f =>
    left
    exact handlerLoop_caches_of_hit seq bf ram (lvl :: rest) st f hp
  | none =>
    by_cases hf : seq ∈ st.failed
    · left
      exact handlerLoop_caches_of_failed seq bf ram (lvl :: rest) st hp hf
    · cases ram with
      | false =>
        left
        exact handlerLoop_caches_of_ram_false seq bf (lvl :: rest) st
      | true =>
        cases hscan : features_all_vs_all bf (seq2bin seq) lvl with
        | none =>
          right
          left
          refine ⟨rfl, hf, rfl, ?_, ?_⟩
          · simp only [mismatch_search_handler, handlerLoop, hp]
            rw [if_neg hf]
            simp [hscan]
          · simp only [mismatch_search_handler, handlerLoop, hp]
            rw [if_neg hf]
            simp [hscan]
        | some f =>
          right
          right
          refine ⟨rfl, hf, f, rfl, ?_⟩
          have hstep : mismatch_search_handler (lvl :: rest) seq bf true st =
              handlerLoop seq bf true rest
                { st with
                  features := featIncr st.features f,
                  imperfect := st.imperfect + 1,
                  passed := dictInsert st.passed seq f } := by
            simp only [mismatch_search_handler, handlerLoop, hp]
            rw [if_neg hf]
            simp only [hscan, if_true]
          have hhit : plook seq (dictInsert st.passed seq f) = some f := by
            rw [plook_dictInsert]
            simp
          rw [hstep]
          cases rest with
          | nil => exact ⟨rfl, rfl⟩
          | cons r rs =>
            refine ⟨?_, ?_⟩ <;> simp [handlerLoop, hhit]

lemma plook_dictMerge_of_coherent (bf : List (String × List Nat)) (lvl : Nat)
    (new : List (String × String)) :
    ∀ (old : List (String × String)) (k v : String),
    (∀ q ∈ old, features_all_vs_all bf (seq2bin q.1) lvl = some q.2) →
    (∀ q ∈ new, features_all_vs_all bf (seq2bin q.1) lvl = some q.2) →
    plook k old = some v → plook k (dictMerge old new) = some v := by
  induction new with
  | nil =>
    intro old k v _ _ hv
    exact hv
  | cons a r ih =>
    intro old k v hold hnew hv
    show plook k (dictMerge (dictInsert old a.1 a.2) r) = some v
    have hins : plook k (dictInsert old a.1 a.2) = some v := by
      rw [plook_dictInsert]
      by_cases hka : k = a.1
      · rw [if_pos hka]
        have h1 := hold (k, v) (plook_mem old k v hv)
        have h2 := hnew a (by simp)
        rw [hka] at h1
        rw [h1] at h2
        exact Option.some.inj h2 ▸ rfl
      · rw [if_neg hka]
        exact hv
    have holdins : ∀ q ∈ dictInsert old a.1 a.2,
        features_all_vs_all bf (seq2bin q.1) lvl = some q.2 := by
      intro q hq
      rcases mem_dictInsert old a.1 a.2 q hq with hq' | hq'
      · exact hold q hq'
      · have := hnew a (by simp)
        rw [hq']
        simpa using this
    exact ih (dictInsert old a.1 a.2) k v holdins
      (fun q hq => hnew q (by simp [hq])) hins

lemma hash_coherent_pres (bf : List (String × List Nat)) (lvl : Nat)
    (deltas : List (List String × List (String × String))) :
    ∀ (F : List String) (P : List (String × String)),
    CoherentC bf lvl F P →
    (∀ d ∈ deltas, CoherentC bf lvl d.1 d.2) →
    CoherentC bf lvl (hash_reads_parsing deltas F P).1
      (hash_reads_parsing deltas F P).2 ∧
    (∀ s ∈ F, s ∈ (hash_reads_parsing deltas F P).1) ∧
    (∀ k v, plook k P = some v →
      plook k (hash_reads_parsing deltas F P).2 = some v) := by
  induction deltas with
  | nil =>
    intro F P hco _
    exact ⟨hco, fun s hs => hs, fun k v hv => hv⟩
  | cons d rest ih =>
    intro F P hco hds
    have hd : CoherentC bf lvl d.1 d.2 := hds d (by simp)
    have hstep : CoherentC bf lvl (setUnionL F d.1) (dictMerge P d.2) := by
      constructor
      · intro s hs
        rcases (mem_setUnionL d.1 F s).mp hs with hs' | hs'
        · exact hco.1 s hs'
        · exact hd.1 s hs'
      · intro q hq
        rcases mem_dictMerge d.2 P q hq with hq' | hq'
        · exact hco.2 q hq'
        · exact hd.2 q hq'
    have hrest := ih (setUnionL F d.1) (dictMerge P d.2) hstep
      (fun e he => hds e (by simp [he]))
    refine ⟨hrest.1, ?_, ?_⟩
    · intro s hs
      exact hrest.2.1 s ((mem_setUnionL d.1 F s).mpr (Or.inl hs))
    · intro k v hv
      exact hrest.2.2 k v
        (plook_dictMerge_of_coherent bf lvl d.2 P k v hco.2 hd.2 hv)

/-- C6: the Match Cache invariant.  For any cache state coherent with
the first-level scan (which every cache arising in a run is: admissions
only ever record the first-level scan outcome), one handler call and
one Scheduler merge each (a) preserve coherence, (b) keep every
existing failed member and every existing passed entry with its
recorded feature unchanged — entries are never removed or modified,
only admission of new ones is gated — and (c) leave no sequence
simultaneously in the failed set and the passed map. -/
theorem c6_cache_invariant (bf : List (String × List Nat)) (lvl : Nat)
    (rest : List Nat) (seq : String) (ram : Bool) (st : PState)
    (shared : List String × List (String × String))
    (deltas : List (List String × List (String × String)))
    (hco : CoherentC bf lvl st.failed st.passed)
    (hsh : CoherentC bf lvl shared.1 shared.2)
    (hds : ∀ d ∈ deltas, CoherentC bf lvl d.1 d.2) :
    (CoherentC bf lvl (mismatch_search_handler (lvl :: rest) seq bf ram st).failed
        (mismatch_search_handler (lvl :: rest) seq bf ram st).passed ∧
      (∀ s ∈ st.failed, s ∈ (mismatch_search_handler (lvl :: rest) seq bf ram st).failed) ∧
      (∀ k v, plook k st.passed = some v →
        plook k (mismatch_search_handler (lvl :: rest) seq bf ram st).passed = some v) ∧
      (∀ s v, s ∈ (mismatch_search_handler (lvl :: rest) seq bf ram st).failed →
        plook s (mismatch_search_handler (lvl :: rest) seq bf ram st).passed = some v →
        False)) ∧
    (CoherentC bf lvl (hash_reads_parsing deltas shared.1 shared.2).1
        (hash_reads_parsing deltas shared.1 shared.2).2 ∧
      (∀ s ∈ shared.1, s ∈ (hash_reads_parsing deltas shared.1 shared.2).1) ∧
      (∀ k v, plook k shared.2 = some v →
        plook k (hash_reads_parsing deltas shared.1 shared.2).2 = some v) ∧
      (∀ s v, s ∈ (hash_reads_parsing deltas shared.1 shared.2).1 →
        plook s (hash_reads_parsing deltas shared.1 shared.2).2 = some v → False)) := by
  constructor
  · have hcase := handler_caches bf lvl rest seq ram st
    have hmain : CoherentC bf lvl
        (mismatch_search_handler (lvl :: rest) seq bf ram st).failed
        (mismatch_search_handler (lvl :: rest) seq bf ram st).passed ∧
        (∀ s ∈ st.failed, s ∈ (mismatch_search_handler (lvl :: rest) seq bf ram st).failed) ∧
        (∀ k v, plook k st.passed = some v →
          plook k (mismatch_search_handler (lvl :: rest) seq bf ram st).passed = some v) := by
      rcases hcase with ⟨hf, hpa⟩ | ⟨hp, hnf, hscan, hf, hpa⟩ |
        ⟨hp, hnf, f, hscan, hf, hpa⟩
      · rw [hf, hpa]
        exact ⟨hco, fun s hs => hs, fun k v hv => hv⟩
      · rw [hf, hpa]
        refine ⟨⟨?_, hco.2⟩, ?_, fun k v hv => hv⟩
        · intro s hs
          rcases (mem_setAdd st.failed seq s).mp hs with hs' | hs'
          · exact hco.1 s hs'
          · rw [hs']
            exact hscan
        · intro s hs
          exact (mem_setAdd st.failed seq s).mpr (Or.inl hs)
      · rw [hf, hpa]
        refine ⟨⟨hco.1, ?_⟩, fun s hs => hs, ?_⟩
        · intro q hq
          rcases mem_dictInsert st.passed seq f q hq with hq' | hq'
          · exact hco.2 q hq'
          · rw [hq']
            simpa using hscan
        · intro k v hv
          rw [plook_dictInsert]
          by_cases hks : k = seq
          · rw [hks] at hv
            rw [hp] at hv
            exact Option.noConfusion hv
          · rw [if_neg hks]
            exact hv
    refine ⟨hmain.1, hmain.2.1, hmain.2.2, ?_⟩
    intro s v hs hv
    exact coherent_disjoint bf lvl _ _ hmain.1 s v hs hv
  · have hmerge := hash_coherent_pres bf lvl deltas shared.1 shared.2 hsh hds
    refine ⟨hmerge.1, hmerge.2.1, hmerge.2.2, ?_⟩
    intro s v hs hv
    exact coherent_disjoint bf lvl _ _ hmerge.1 s v hs hv

/-- C6 witness: single feature `AAAA`, first level 1.  The worker state
holds the coherent caches `failed = [TTTT]`, `passed = [(AAAT, AAAA)]`;
the fresh read `AAGA` is handled with growth permitted; the shared
cache merges one coherent delta.  The preserved entries, the new
admissions, and the disjointness instances all follow by applying the
invariant theorem. -/
theorem c6_cache_invariant_witness :
    ("TTTT" ∈ (mismatch_search_handler [1] "AAGA" [("AAAA", seq2bin "AAAA")] true
        (initState [("AAAA", 0)] ["TTTT"] [("AAAT", "AAAA")])).failed) ∧
    (plook "AAAT" (mismatch_search_handler [1] "AAGA" [("AAAA", seq2bin "AAAA")] true
        (initState [("AAAA", 0)] ["TTTT"] [("AAAT", "AAAA")])).passed = some "AAAA") ∧
    (∀ v, "TTTT" ∈ (hash_reads_parsing [(["GGGG"], [("TAAA", "AAAA")])]
        ["TTTT"] [("AAAT", "AAAA")]).1 →
      plook "TTTT" (hash_reads_parsing [(["GGGG"], [("TAAA", "AAAA")])]
        ["TTTT"] [("AAAT", "AAAA")]).2 = some v → False) := by
  have h := c6_cache_invariant [("AAAA", seq2bin "AAAA")] 1 [] "AAGA" true
    (initState [("AAAA", 0)] ["TTTT"] [("AAAT", "AAAA")])
    (["TTTT"], [("AAAT", "AAAA")]) [(["GGGG"], [("TAAA", "AAAA")])]
    (by constructor <;> decide) (by constructor <;> decide)
    (by intro d hd
        simp at hd
        rw [hd]
        constructor <;> decide)
  refine ⟨h.1.2.1 "TTTT" (by decide), h.1.2.2.1 "AAAT" "AAAA" (by decide), ?_⟩
  intro v
  exact h.2.2.2.2 "TTTT" v

/-- Loop of `border_finder` (source lines 330-346), driven by the
remaining fuel (the read length bounds the iteration count).  Per
position the aligned slice is compared first; the loop then bails out
with no match once the position exceeds `read.length - anchor.length -
1` (a Python int that may be negative), and otherwise reports the first
matching position. -/
def borderFinderAux (seq read : List Nat) (mismatch : Nat) : Nat → Nat → Option Nat
  | 0, _ => none
  | fuel + 1, i =>
    let comparison := (read.drop i).take seq.length
    let finder := binary_subtract seq comparison mismatch
    if (i : Int) > (read.length : Int) - seq.length - 1 then none
    else if finder ≠ 0 then some i
    else borderFinderAux seq read mismatch fuel (i + 1)

/-- Embedding of `border_finder` (source lines 330-346). -/
def border_finder (seq read : List Nat) (mismatch : Nat) : Option Nat :=
  borderFinderAux seq read mismatch read.length 0

/-- Python list/bytes slicing `l[a:b]` with step 1: negative indices
count from the end of the list, and both bounds are clamped to the
valid range. -/
def pySlice (l : List Char) (a b : Int) : List Char :=
  let n : Int := l.length
  let a2 : Int := if a < 0 then max (n + a) 0 else min a n
  let b2 : Int := if b < 0 then max (n + b) 0 else min b n
  (l.drop a2.toNat).take (b2 - a2).toNat

/-- Python `len(qset.intersection(q)) == 0`: no character of the
quality window lies in the rejecting set. -/
def qualPass (qset : List Char) (q : List Char) : Bool :=
  q.all (fun c => !qset.contains c)

/-- Per-run parameters consumed by the anchor-derived extractor
(`param` entries of the source; the anchors are already `seq2bin`
encoded, as done at source lines 291-294). -/
structure Param where
  upstream : Option (List Nat)
  downstream : Option (List Nat)
  miss_search_up : Nat
  miss_search_down : Nat
  quality_set_up : List Char
  quality_set_down : List Char
  quality_set : List Char
  length : Nat
  miss : Nat

/-- Embedding of `unfixed_starting_place_parser` (source lines
131-175, renamed): resolves the trim window from the configured
anchors — both anchors, upstream only, or downstream only — checking
the anchor's own quality window, and answers `(None, None)` on any
failure.  Positions are Python ints: the downstream-only start
`end - length` may be negative. -/
def unfixed_starting_place (read qual : String) (p : Param) :
    Option Int × Option Int :=
  match p.upstream, p.downstream with
  | some up, some down =>
    match border_finder up (seq2bin read) p.miss_search_up,
          border_finder down (seq2bin read) p.miss_search_down with
    | some s, some e =>
      if qualPass p.quality_set_up (pySlice qual.data s (s + up.length)) &&
         qualPass p.quality_set_down (pySlice qual.data e (e + down.length)) then
        (some ((s : Int) + up.length), some (e : Int))
      else (none, none)
    | _, _ => (none, none)
  | some up, none =>
    match border_finder up (seq2bin read) p.miss_search_up with
    | some s =>
      if qualPass p.quality_set_up (pySlice qual.data s (s + up.length)) then
        (some ((s : Int) + up.length), some ((s : Int) + up.length + p.length))
      else (none, none)
    | none => (none, none)
  | none, some down =>
    match border_finder down (seq2bin read) p.miss_search_down with
    | some e =>
      if qualPass p.quality_set_down (pySlice qual.data e (e + down.length)) then
        (some ((e : Int) - p.length), some (e : Int))
      else (none, none)
    | none => (none, none)
  | none, none => (none, none)

/-- Window resolution of `fastq_parser` in anchor mode (source lines
229-236): the resolved positions, with the start cleared when the
downstream position precedes the upstream one. -/
def resolveWindow (p : Param) (read qual : String) : Option Int × Option Int :=
  match unfixed_starting_place read qual p with
  | (some s, some e) => (if e < s then none else some s, some e)
  | w => w

/-- One read of `fastq_parser` in anchor mode and counting mode
(source lines 227-269): resolve the window; if resolved, slice the
sequence (uppercased) and quality lines, run the quality gate, then
count — exact feature hit, mismatch fallback, or unmatched; if the
window is unresolved nothing but the total-reads counter changes. -/
def processReadUnfixed (p : Param) (bf : List (String × List Nat))
    (ram : Bool) (seqLine qualLine : String) (st : PState) : PState :=
  let w := resolveWindow p seqLine qualLine
  let st1 := match w.1, w.2 with
    | some s, some e =>
      let seq := String.mk ((pySlice seqLine.data s e).map Char.toUpper)
      let quality := pySlice qualLine.data s e
      if qualPass p.quality_set quality then
        if (plookN seq st.features).isSome then
          { st with features := featIncr st.features seq,
                    perfect := st.perfect + 1 }
        else if p.miss ≠ 0 then
          mismatch_search_handler (missList p.miss) seq bf ram st
        else
          { st with non_aligned := st.non_aligned + 1 }
      else
        { st with quality_failed := st.quality_failed + 1 }
    | _, _ => st
  { st1 with reads := st1.reads + 1 }

/-- C4 amended: in anchor-derived mode, a read whose trim window cannot
be resolved (anchor not found, anchor quality window failing, or
downstream position preceding upstream) is skipped with only the
total-reads counter incremented: the quality-rejected counter is NOT
incremented, and neither is the unmatched counter nor any other
counter or cache. -/
theorem c4_window_failure_skips_silently (p : Param)
    (bf : List (String × List Nat)) (ram : Bool) (seqLine qualLine : String)
    (st : PState) (h : (resolveWindow p seqLine qualLine).1 = none) :
    processReadUnfixed p bf ram seqLine qualLine st =
      { st with reads := st.reads + 1 } := by
  unfold processReadUnfixed
  rcases hw : resolveWindow p seqLine qualLine with ⟨w1, w2⟩
  rw [hw] at h
  simp only at h
  subst h
  simp [hw]

/-- C4 counterexample: upstream anchor `TT`, read `AAAA` (anchor absent),
all-pass quality sets.  The window resolution fails, the read is
skipped — and the quality-rejected counter stays 0, while the claim
says that for such a read it is incremented (to 1). -/
theorem c4_counterexample :
    (processReadUnfixed
      ⟨some (seq2bin "TT"), none, 0, 0, [], [], [], 4, 1⟩
      [("AAAA", seq2bin "AAAA")] true "AAAA" "IIII"
      (initState [("AAAA", 0)] [] [])).quality_failed = 0 ∧
    ¬ (processReadUnfixed
      ⟨some (seq2bin "TT"), none, 0, 0, [], [], [], 4, 1⟩
      [("AAAA", seq2bin "AAAA")] true "AAAA" "IIII"
      (initState [("AAAA", 0)] [] [])).quality_failed = 1 := by
  constructor
  · rfl
  · intro hcontra
    exact absurd hcontra (by decide)

/-- C4 witness: the amended theorem applied at the concrete skipped
read of the counterexample — the whole state is unchanged except the
total-reads counter. -/
theorem c4_window_failure_skips_silently_witness :
    processReadUnfixed
      ⟨some (seq2bin "TT"), none, 0, 0, [], [], [], 4, 1⟩
      [("AAAA", seq2bin "AAAA")] true "AAAA" "IIII"
      (initState [("AAAA", 0)] [] []) =
    { initState [("AAAA", 0)] [] [] with
      reads := (initState [("AAAA", 0)] [] []).reads + 1 } := by
  exact c4_window_failure_skips_silently
    ⟨some (seq2bin "TT"), none, 0, 0, [], [], [], 4, 1⟩
    [("AAAA", seq2bin "AAAA")] true "AAAA" "IIII"
    (initState [("AAAA", 0)] [] []) (by decide)

lemma pySlice_neg_start (l : List Char) (a b : Int) (ha : a < 0)
    (h0 : 0 ≤ (l.length : Int) + a) (hb : 0 ≤ b) (hbl : b ≤ (l.length : Int)) :
    pySlice l a b =
      (l.drop ((l.length : Int) + a).toNat).take (b - ((l.length : Int) + a)).toNat := by
  simp only [pySlice]
  rw [if_pos ha, if_neg (by omega : ¬ b < 0)]
  rw [max_eq_left h0, min_eq_left hbl]

/-- C10: in anchor-derived mode with only a downstream anchor, when the
anchor is found at position `e` with `e` strictly below the configured
length, the computed window start `e - length` is negative, the read is
NOT skipped (the `end < start` fixup does not trigger because the start
is negative while `e` is not), and the sequence/quality slices are
taken with that negative Python start index: on any line of the read's
length the slice is the window measured from the line's end,
`drop (n + e - length)` then `take (e - (n + e - length))`. -/
theorem c10_negative_start_window (p : Param) (down : List Nat)
    (read qual : String) (e : Nat)
    (hup : p.upstream = none) (hdown : p.downstream = some down)
    (hbf : border_finder down (seq2bin read) p.miss_search_down = some e)
    (hq : qualPass p.quality_set_down
      (pySlice qual.data e (e + down.length)) = true)
    (helen : e < p.length) (hlen2 : p.length ≤ read.data.length + e)
    (hen : e ≤ read.data.length) :
    unfixed_starting_place read qual p =
      (some ((e : Int) - p.length), some (e : Int)) ∧
    ((e : Int) - p.length < 0) ∧
    resolveWindow p read qual =
      (some ((e : Int) - p.length), some (e : Int)) ∧
    (∀ l : List Char, l.length = read.data.length →
      pySlice l ((e : Int) - p.length) (e : Int) =
        (l.drop (l.length + e - p.length)).take (e - (l.length + e - p.length))) := by
  have hneg : (e : Int) - p.length < 0 := by omega
  have hresolved : unfixed_starting_place read qual p =
      (some ((e : Int) - p.length), some (e : Int)) := by
    unfold unfixed_starting_place
    rw [hup, hdown]
    simp only [hbf, hq, if_true]
  refine ⟨hresolved, hneg, ?_, ?_⟩
  · unfold resolveWindow
    rw [hresolved]
    dsimp only
    rw [if_neg (by omega : ¬ ((e : Int) < (e : Int) - p.length))]
  · intro l hll
    rw [pySlice_neg_start l ((e : Int) - p.length) (e : Int) hneg
      (by rw [hll]; omega) (by omega) (by rw [hll]; exact_mod_cast hen)]
    have hx : ((l.length : Int) + ((e : Int) - p.length)).toNat =
        l.length + e - p.length := by omega
    have hy : ((e : Int) - ((l.length : Int) + ((e : Int) - p.length))).toNat =
        e - (l.length + e - p.length) := by omega
    rw [hx, hy]

/-- C10 witness: downstream anchor `TT`, read `ACTTGG` (anchor found at
position 2), configured length 5: the start is `2 - 5 = -3`, the read
is not skipped, and the extracted window is the (here empty) slice
measured from the read's end. -/
theorem c10_negative_start_window_witness :
    resolveWindow ⟨none, some (seq2bin "TT"), 0, 0, [], [], [], 5, 1⟩
      "ACTTGG" "IIIIII" = (some ((2 : Int) - (5 : Nat)), some (2 : Int)) ∧
    ((2 : Int) - (5 : Nat) < 0) ∧
    pySlice "ACTTGG".data ((2 : Int) - (5 : Nat)) (2 : Int) =
      ("ACTTGG".data.drop ("ACTTGG".data.length + 2 - 5)).take
        (2 - ("ACTTGG".data.length + 2 - 5)) := by
  have h := c10_negative_start_window
    ⟨none, some (seq2bin "TT"), 0, 0, [], [], [], 5, 1⟩ (seq2bin "TT")
    "ACTTGG" "IIIIII" 2 rfl rfl (by decide) (by decide)
    (by decide) (by decide) (by decide)
  exact ⟨h.2.2.1, h.2.1, h.2.2.2 "ACTTGG".data rfl⟩

/-- Phred-symbol list of the source (line 653): the ASCII quality
characters from `!` (33) through `I` (73) — with `.` (46) absent, as in
the source string. -/
def quality_list : List Char :=
  ((List.range 13).map (fun i => Char.ofNat (33 + i))) ++
  ((List.range 27).map (fun i => Char.ofNat (47 + i)))

/-- Rejecting quality set `set(quality_list[:threshold-1])` (source
lines 655-657).  The slice bound `threshold - 1` is a Python int: for
`threshold = 0` it is `-1`, which keeps every symbol but the last. -/
def quality_set (threshold : Nat) : List Char :=
  pySlice quality_list 0 ((threshold : Int) - 1)

/-- Threshold coercion of the interactive path `inputs_handler`
(source lines 485-493): each of the three thresholds given as 0 is
replaced by 1. -/
def inputs_handler_thresholds (phred qual_up qual_down : Nat) : Nat × Nat × Nat :=
  (if phred = 0 then 1 else phred,
   if qual_up = 0 then 1 else qual_up,
   if qual_down = 0 then 1 else qual_down)

/-- Main Phred threshold of the command-line path (source lines
762-766): default 30, and a supplied 0 is coerced to 1. -/
def cmd_phred (ph : Option Nat) : Nat :=
  match ph with
  | some v => if v = 0 then 1 else v
  | none => 30

/-- Upstream-anchor threshold of the command-line path (source lines
788-790): default 30, the supplied value taken verbatim — no coercion. -/
def cmd_qual_up (qsu : Option Nat) : Nat :=
  match qsu with
  | some v => v
  | none => 30

/-- Downstream-anchor threshold of the command-line path (source lines
792-794): default 30, the supplied value taken verbatim — no coercion. -/
def cmd_qual_down (qsd : Option Nat) : Nat :=
  match qsd with
  | some v => v
  | none => 30

/-- C8 counterexample: a per-anchor upstream threshold supplied as 0 on
the command line stays 0 — it is not coerced to 1 — and the rejecting
set built from it differs from the one built from 1 (it rejects every
symbol but the highest instead of none), so the claim fails on the
command-line input path. -/
theorem c8_counterexample :
    cmd_qual_up (some 0) = 0 ∧
    ¬ cmd_qual_up (some 0) = 1 ∧
    quality_set (cmd_qual_up (some 0)) ≠ quality_set 1 := by
  refine ⟨rfl, by decide, by decide⟩

/-- C8 amended: the interactive path coerces all three thresholds from
0 to 1 before the rejecting sets are built; the command-line path
coerces only the main Phred threshold — the per-anchor upstream and
downstream thresholds supplied as 0 are kept verbatim, and a 0
threshold builds the rejecting set of all symbols but the highest
(`quality_list[:-1]`) rather than the empty set a threshold of 1
builds. -/
theorem c8_zero_threshold_coercion (u d v : Nat) :
    (inputs_handler_thresholds 0 u d).1 = 1 ∧
    (inputs_handler_thresholds u 0 d).2.1 = 1 ∧
    (inputs_handler_thresholds u d 0).2.2 = 1 ∧
    cmd_phred (some 0) = 1 ∧
    cmd_qual_up (some v) = v ∧
    cmd_qual_down (some v) = v ∧
    quality_set 0 = quality_list.take (quality_list.length - 1) ∧
    quality_set 1 = [] := by
  refine ⟨rfl, ?_, ?_, rfl, rfl, rfl, by decide, by decide⟩
  · simp [inputs_handler_thresholds]
  · simp [inputs_handler_thresholds]

end FastQ
